import Mathlib

/-!
Shallow embedding of `src/frequency-response/measure.cc` (jpcima/vrac).

The program measures a frequency response by sweeping pure tones across the
bins of a 2048-point real FFT.  The JACK `process` callback synthesizes the
tone for the current bin, accumulates the returned signal into a capture
buffer, windows and transforms it, and advances a bin-sweep state machine
gated by silence detection.  Samples are modelled as real numbers, the FFT
as the exact discrete Fourier transform; the unsigned 32-bit counters of the
C source are modelled as naturals reduced modulo `2 ^ 32` where the source
can overflow.
-/

noncomputable section

namespace FreqResp

/-- The `fft_size` constant of measure.cc (`constexpr unsigned fft_size = 2048`). -/
def fft_size : ℕ := 2048

/-- The bin count `fft_nbins = fft_size / 2 + 1`. -/
def fft_nbins : ℕ := fft_size / 2 + 1

/-- The threshold `silence_threshold = 1e-2f` (−40 dB). -/
def silence_threshold : ℝ := 1e-2

/-- Modulus of the C `unsigned` type (32-bit). -/
def U32 : ℕ := 2 ^ 32

/-- The sentinel `~0u` used for "no bin selected yet". -/
def none_bin : ℕ := U32 - 1

/-- The mutable state of `Measure_Context`, minus the FFTW plan (the plan is
a pure function here, `dft`).  `fft_in` is the capture buffer (only indices
`< fft_size` are ever used), `response` the per-bin result table, allocated
zero-initialised by `new cfloat[fft_nbins]`. -/
structure Measure_Context where
  fft_in : ℕ → ℝ
  current_bin : ℕ
  fft_in_fill : ℕ
  oscillator_phase : ℝ
  response : ℕ → ℂ
  silence_frames_count : ℕ
  silence_frames_needed : ℕ

/-- Result of one `process` callback invocation: the updated context, the
samples written to the output port buffer, and whether
`measure_finished.store(1)` executed during this invocation. -/
structure ProcOut where
  ctx : Measure_Context
  output : List ℝ
  finished : Bool

/-- One step of the silence debounce loop (measure.cc lines 51–53):
`count = (|input[i]| < silence_threshold) ? count + 1 : 0`, with the unsigned
increment wrapping modulo `2 ^ 32`. -/
def silence_step (c : ℕ) (x : ℝ) : ℕ :=
  if |x| < silence_threshold then (c + 1) % U32 else 0

/-- The silence counter after folding a whole input buffer. -/
def silence_run (c : ℕ) (input : List ℝ) : ℕ :=
  input.foldl silence_step c

/-- The window of measure.cc line 65:
`0.42 - 0.5*cos(2*M_PI*k) + 0.08*cos(4*M_PI*k)` with `k = i/(fft_size-1)`. -/
def window (i : ℕ) : ℝ :=
  0.42 - 0.5 * Real.cos (2 * Real.pi * ((i : ℝ) / ((fft_size - 1 : ℕ) : ℝ)))
    + 0.08 * Real.cos (4 * Real.pi * ((i : ℝ) / ((fft_size - 1 : ℕ) : ℝ)))

/-- In-place windowing loop (lines 62–66): multiplies every sample `i < fft_size`
of the capture buffer by `window i`. -/
def apply_window (x : ℕ → ℝ) : ℕ → ℝ :=
  fun i => if i < fft_size then x i * window i else x i

/-- The real-to-complex DFT computed by `fftwf_execute` (unnormalised FFTW
r2c convention): `out[k] = Σ_{j<N} in[j]·exp(−2πi·j·k/N)`. -/
def dft (x : ℕ → ℝ) (k : ℕ) : ℂ :=
  ∑ j in Finset.range fft_size,
    ((x j : ℝ) : ℂ) *
      Complex.exp (-(2 * (Real.pi : ℂ) * Complex.I * (j : ℂ) * (k : ℂ)) / (fft_size : ℂ))

/-- The C cast `(int)x`: truncation toward zero. -/
def trunc (x : ℝ) : ℤ :=
  if 0 ≤ x then ⌊x⌋ else ⌈x⌉

/-- One oscillator step (lines 83–84): `phase += freq; phase -= (int)phase`. -/
def osc_step (freq p : ℝ) : ℝ :=
  (p + freq) - ((trunc (p + freq) : ℤ) : ℝ)

/-- Oscillator phase after `n` samples. -/
def osc_phase (freq : ℝ) : ℕ → ℝ → ℝ
  | 0, p => p
  | n + 1, p => osc_phase freq n (osc_step freq p)

/-- Samples written to the output buffer by the oscillator loop:
`output[i] = sin(phase)` before each phase update (lines 82–84). -/
def osc_out (freq : ℝ) : ℕ → ℝ → List ℝ
  | 0, _ => []
  | n + 1, p => Real.sin p :: osc_out freq n (osc_step freq p)

/-- The oscillator loop of lines 81–85.  The loop condition re-tests
`fft_in_fill < fft_size` each iteration but the fill is not modified inside
the loop, so either all `n` samples are synthesized or none (in which case
the output keeps the zeros written by `memset`). -/
def osc_loop (freq p : ℝ) (fill n : ℕ) : ℝ × List ℝ :=
  if fill < fft_size then (osc_phase freq n p, osc_out freq n p)
  else (p, List.replicate n 0)

/-- The capture loop of lines 89–90:
`for i < nframes && fill < fft_size: fft_in[fill++] = input[i]`. -/
def capture : (ℕ → ℝ) → ℕ → List ℝ → (ℕ → ℝ) × ℕ
  | x, fill, [] => (x, fill)
  | x, fill, v :: rest =>
    if fill < fft_size then capture (Function.update x fill v) (fill + 1) rest
    else (x, fill)

/-- Tail of the callback after the bin-change block (lines 80–91): synthesize
the tone for the (possibly new) current bin, then record the input unless a
bin change happened in this invocation (`record_input = !change_bin`). -/
def finish_buffer (changed : Bool) (input : List ℝ) (ctx : Measure_Context) : ProcOut :=
  let freq : ℝ := (ctx.current_bin : ℝ) / (fft_size : ℝ)
  let po := osc_loop freq ctx.oscillator_phase ctx.fft_in_fill input.length
  if changed then
    ⟨{ ctx with oscillator_phase := po.1 }, po.2, false⟩
  else
    let pc := capture ctx.fft_in ctx.fft_in_fill input
    ⟨{ ctx with oscillator_phase := po.1, fft_in := pc.1, fft_in_fill := pc.2 }, po.2, false⟩

/-- The `process` JACK callback (measure.cc lines 40–94).  `started` is the
value observed from `measure_started.load()`. -/
def process : Bool → List ℝ → Measure_Context → ProcOut
  | false, input, ctx => ⟨ctx, List.replicate input.length 0, false⟩
  | true, input, ctx =>
    let c1 : Measure_Context :=
      { ctx with silence_frames_count := silence_run ctx.silence_frames_count input }
    if c1.current_bin = fft_nbins then
      ⟨c1, List.replicate input.length 0, true⟩
    else
      let c2 : Measure_Context :=
        if c1.current_bin ≠ none_bin ∧ c1.fft_in_fill = fft_size then
          { c1 with fft_in := apply_window c1.fft_in,
                    response := Function.update c1.response c1.current_bin
                      (dft (apply_window c1.fft_in) c1.current_bin) }
        else c1
      if c2.current_bin = none_bin ∨ c2.fft_in_fill = fft_size then
        if c2.silence_frames_count < c2.silence_frames_needed then
          ⟨c2, List.replicate input.length 0, false⟩
        else
          finish_buffer true input
            { c2 with current_bin := (c2.current_bin + 1) % U32,
                      fft_in_fill := 0, oscillator_phase := 0 }
      else finish_buffer false input c2

/-- Setup of `silence_frames_needed = std::ceil(10e-3 * sample_rate)` (line 136),
converted to `unsigned`. -/
def mkNeeded (sr : ℝ) : ℕ :=
  (⌈(10e-3 : ℝ) * sr⌉).toNat

/-- The context right after `main`'s setup: capture buffer uninitialised
(`buf` arbitrary), no bin selected (`~0u`), fill/phase/counter zero, the
response table zero-initialised. -/
def init_ctx (needed : ℕ) (buf : ℕ → ℝ) : Measure_Context :=
  ⟨buf, none_bin, 0, 0, fun _ => 0, 0, needed⟩

/-- The `n` consecutive samples of an input stream starting at position `pos`. -/
def chunk (s : ℕ → ℝ) (pos n : ℕ) : List ℝ :=
  (List.range n).map fun i => s (pos + i)

/-- Replay the stream `s` through the callback, split into buffers whose
lengths are listed in `chunks`, starting at stream position `pos`. -/
def run_chunks (s : ℕ → ℝ) : List ℕ → ℕ → Measure_Context → Measure_Context
  | [], _, ctx => ctx
  | n :: rest, pos, ctx =>
    run_chunks s rest (pos + n) (process true (chunk s pos n) ctx).ctx

/-- Iterate the started callback over a list of explicit input buffers. -/
def run_bufs (bufs : List (List ℝ)) (ctx : Measure_Context) : Measure_Context :=
  bufs.foldl (fun c l => (process true l c).ctx) ctx

/-- One line of the persisted result (lines 176–179):
frequency `i * (fs / fft_size)`, amplitude `|response[i]| / fft_size`,
phase `arg(response[i])`. -/
def outputLines (fs : ℝ) (resp : ℕ → ℂ) : List (ℝ × ℝ × ℝ) :=
  (List.range fft_nbins).map fun (i : ℕ) =>
    ((i : ℝ) * (fs / (fft_size : ℝ)),
     Complex.abs (resp i) / (fft_size : ℝ),
     Complex.arg (resp i))

/-- The phase recurrence exactly as the specification words it:
`phase += bin/N` followed by `phase -= floor(phase)`. -/
def spec_phase (freq : ℝ) : ℕ → ℝ → ℝ
  | 0, p => p
  | n + 1, p => spec_phase freq n ((p + freq) - ((⌊p + freq⌋ : ℤ) : ℝ))

/-- Formalisation of claim C1 (chunk-size independence): for every input
stream and every two buffer-length sequences consuming the same number of
samples, every bin that both runs have measured (the sweep advanced past it)
carries the same response value. -/
def chunk_independent : Prop :=
  ∀ (s : ℕ → ℝ) (c1 c2 : List ℕ) (needed : ℕ) (buf : ℕ → ℝ) (b : ℕ),
    c1.sum = c2.sum →
    b < (run_chunks s c1 0 (init_ctx needed buf)).current_bin →
    b < (run_chunks s c2 0 (init_ctx needed buf)).current_bin →
    (run_chunks s c1 0 (init_ctx needed buf)).response b =
      (run_chunks s c2 0 (init_ctx needed buf)).response b

/-- The concrete stream used to separate two chunkings: a single full-scale
sample at position 514 of an otherwise silent stream. -/
def s_ce : ℕ → ℝ := fun k => if k = 514 then 1 else 0

/-- Stream for the double-write scenario: full-scale samples at positions
514 and 2049 of an otherwise silent stream. -/
def t_ce : ℕ → ℝ := fun k => if k = 514 ∨ k = 2049 then 1 else 0

/-- A zeroed capture buffer (stands for the uninitialised FFTW allocation). -/
def zbuf : ℕ → ℝ := fun _ => 0

/-! ### Basic numeric facts -/

theorem U32_pos : 0 < U32 := by norm_num [U32]

theorem none_bin_ne_nbins : none_bin ≠ fft_nbins := by
  norm_num [none_bin, U32, fft_nbins, fft_size]

theorem none_bin_succ : (none_bin + 1) % U32 = 0 := by
  norm_num [none_bin, U32]

theorem silent_zero : |(0 : ℝ)| < silence_threshold := by
  norm_num [silence_threshold]

theorem loud_one : ¬ |(1 : ℝ)| < silence_threshold := by
  norm_num [silence_threshold]

/-! ### Silence counter lemmas -/

theorem silence_run_nil (c : ℕ) : silence_run c [] = c := rfl

theorem silence_run_cons (c : ℕ) (x : ℝ) (l : List ℝ) :
    silence_run c (x :: l) = silence_run (silence_step c x) l := rfl

theorem silence_run_append (c : ℕ) (l1 l2 : List ℝ) :
    silence_run c (l1 ++ l2) = silence_run (silence_run c l1) l2 :=
  List.foldl_append _ _ _ _

theorem silence_step_silent (c : ℕ) {x : ℝ} (h : |x| < silence_threshold) :
    silence_step c x = (c + 1) % U32 := if_pos h

theorem silence_step_loud (c : ℕ) {x : ℝ} (h : ¬ |x| < silence_threshold) :
    silence_step c x = 0 := if_neg h

theorem silence_run_replicate (n : ℕ) :
    ∀ c, c + n < U32 → silence_run c (List.replicate n 0) = c + n := by
  induction n with
  | zero => intro c _; simp [silence_run]
  | succ n ih =>
    intro c h
    rw [List.replicate_succ, silence_run_cons, silence_step_silent c silent_zero,
      Nat.mod_eq_of_lt (by omega), ih (c + 1) (by omega)]
    omega

theorem silence_run_loud_singleton (c : ℕ) {x : ℝ} (h : ¬ |x| < silence_threshold) :
    silence_run c [x] = 0 := by
  rw [silence_run_cons, silence_step_loud c h, silence_run_nil]

/-! ### Chunk lemmas -/

theorem chunk_length (s : ℕ → ℝ) (pos n : ℕ) : (chunk s pos n).length = n := by
  simp [chunk]

theorem chunk_one (s : ℕ → ℝ) (pos : ℕ) : chunk s pos 1 = [s pos] := by
  simp [chunk, List.range_succ]

theorem chunk_add (s : ℕ → ℝ) (pos m n : ℕ) :
    chunk s pos (m + n) = chunk s pos m ++ chunk s (pos + m) n := by
  simp [chunk, List.range_add, List.map_map, Function.comp, Nat.add_assoc]

theorem chunk_eq_replicate {s : ℕ → ℝ} {pos n : ℕ}
    (h : ∀ i, i < n → s (pos + i) = 0) : chunk s pos n = List.replicate n 0 := by
  rw [List.eq_replicate_iff]
  refine ⟨chunk_length s pos n, ?_⟩
  intro b hb
  simp only [chunk, List.mem_map, List.mem_range] at hb
  obtain ⟨i, hi, hbe⟩ := hb
  rw [← hbe]
  exact h i hi

theorem chunk_getD (s : ℕ → ℝ) (pos n j : ℕ) (hj : j < n) :
    (chunk s pos n).getD j 0 = s (pos + j) := by
  simp [chunk, List.getD_eq_getElem?_getD, List.getElem?_map, List.getElem?_range hj]

/-! ### Capture loop lemmas -/

theorem capture_spec : ∀ (l : List ℝ) (x : ℕ → ℝ) (fill : ℕ),
    fill + l.length ≤ fft_size →
    capture x fill l =
      (fun j => if fill ≤ j ∧ j < fill + l.length then l.getD (j - fill) 0 else x j,
       fill + l.length) := by
  intro l
  induction l with
  | nil =>
    intro x fill _
    rw [capture, Prod.ext_iff]
    refine ⟨funext fun j => ?_, by simp⟩
    simp only [List.length_nil, Nat.add_zero]
    rw [if_neg (by omega)]
  | cons v rest ih =>
    intro x fill h
    rw [List.length_cons] at h
    rw [capture, if_pos (show fill < fft_size by omega), ih _ (fill + 1) (by omega),
      Prod.ext_iff]
    constructor
    · funext j
      show (if fill + 1 ≤ j ∧ j < fill + 1 + rest.length then rest.getD (j - (fill + 1)) 0
            else Function.update x fill v j) =
          (if fill ≤ j ∧ j < fill + (v :: rest).length then (v :: rest).getD (j - fill) 0
            else x j)
      rw [List.length_cons]
      by_cases h1 : j = fill
      · subst h1
        rw [if_neg (by omega), if_pos (by omega), Function.update_same, Nat.sub_self,
          List.getD_cons_zero]
      · by_cases h2 : fill ≤ j ∧ j < fill + (rest.length + 1)
        · have h3 : j - fill = (j - (fill + 1)) + 1 := by omega
          rw [if_pos (by omega), if_pos h2, h3, List.getD_cons_succ]
        · rw [if_neg (by omega), if_neg h2, Function.update_noteq h1]
    · show fill + 1 + rest.length = fill + (v :: rest).length
      rw [List.length_cons]
      omega

/-! ### Oscillator lemmas -/

theorem trunc_zero : trunc 0 = 0 := by simp [trunc]

theorem osc_step_zero : osc_step 0 0 = 0 := by
  simp [osc_step, trunc]

theorem osc_phase_zero (n : ℕ) : osc_phase 0 n 0 = 0 := by
  induction n with
  | zero => rfl
  | succ n ih => rw [osc_phase, osc_step_zero]; exact ih

/-! ### Branch lemmas for the `process` callback -/

theorem process_not_started (l : List ℝ) (ctx : Measure_Context) :
    process false l ctx = ⟨ctx, List.replicate l.length 0, false⟩ := rfl

theorem process_bootstrap (l : List ℝ) (ctx : Measure_Context)
    (hbin : ctx.current_bin = none_bin)
    (hgate : ctx.silence_frames_needed ≤ silence_run ctx.silence_frames_count l) :
    process true l ctx =
      ⟨⟨ctx.fft_in, 0, 0, 0, ctx.response,
        silence_run ctx.silence_frames_count l, ctx.silence_frames_needed⟩,
        osc_out 0 l.length 0, false⟩ := by
  have h1 : ¬ (none_bin = fft_nbins) := none_bin_ne_nbins
  simp only [process, hbin, h1, if_false, ite_false, ne_eq, not_true_eq_false,
    false_and, if_true, ite_true, true_or, not_lt.mpr hgate, if_neg h1]
  simp only [finish_buffer, none_bin_succ, Nat.cast_zero, zero_div, osc_loop,
    if_pos (show 0 < fft_size by norm_num [fft_size]), osc_phase_zero]
  rw [if_pos trivial]

theorem process_bootstrap_stall (l : List ℝ) (ctx : Measure_Context)
    (hbin : ctx.current_bin = none_bin)
    (hgate : silence_run ctx.silence_frames_count l < ctx.silence_frames_needed) :
    process true l ctx =
      ⟨{ ctx with silence_frames_count := silence_run ctx.silence_frames_count l },
        List.replicate l.length 0, false⟩ := by
  have h1 : ¬ (none_bin = fft_nbins) := none_bin_ne_nbins
  simp only [process, hbin, h1, if_false, ite_false, ne_eq, not_true_eq_false,
    false_and, if_true, ite_true, true_or, hgate]

theorem process_finished (l : List ℝ) (ctx : Measure_Context)
    (hbin : ctx.current_bin = fft_nbins) :
    process true l ctx =
      ⟨{ ctx with silence_frames_count := silence_run ctx.silence_frames_count l },
        List.replicate l.length 0, true⟩ := by
  simp only [process, hbin, ite_true]

theorem process_capture (l : List ℝ) (ctx : Measure_Context)
    (hbin1 : ctx.current_bin ≠ none_bin)
    (hbin2 : ctx.current_bin ≠ fft_nbins)
    (hfill : ctx.fft_in_fill < fft_size) :
    process true l ctx =
      ⟨⟨(capture ctx.fft_in ctx.fft_in_fill l).1, ctx.current_bin,
        (capture ctx.fft_in ctx.fft_in_fill l).2,
        osc_phase ((ctx.current_bin : ℝ) / (fft_size : ℝ)) l.length ctx.oscillator_phase,
        ctx.response, silence_run ctx.silence_frames_count l, ctx.silence_frames_needed⟩,
        osc_out ((ctx.current_bin : ℝ) / (fft_size : ℝ)) l.length ctx.oscillator_phase,
        false⟩ := by
  have hne : ¬ (ctx.fft_in_fill = fft_size) := Nat.ne_of_lt hfill
  simp only [process, hbin1, hbin2, hne, if_false, ite_false, ne_eq, and_false,
    false_or, or_self, finish_buffer, osc_loop, if_pos hfill]
  rw [if_neg Bool.false_ne_true]

theorem process_transform_advance (l : List ℝ) (ctx : Measure_Context)
    (hbin1 : ctx.current_bin ≠ none_bin)
    (hbin2 : ctx.current_bin ≠ fft_nbins)
    (hfill : ctx.fft_in_fill = fft_size)
    (hgate : ctx.silence_frames_needed ≤ silence_run ctx.silence_frames_count l) :
    process true l ctx =
      ⟨⟨apply_window ctx.fft_in, (ctx.current_bin + 1) % U32, 0,
        osc_phase ((((ctx.current_bin + 1) % U32 : ℕ) : ℝ) / (fft_size : ℝ)) l.length 0,
        Function.update ctx.response ctx.current_bin
          (dft (apply_window ctx.fft_in) ctx.current_bin),
        silence_run ctx.silence_frames_count l, ctx.silence_frames_needed⟩,
        osc_out ((((ctx.current_bin + 1) % U32 : ℕ) : ℝ) / (fft_size : ℝ)) l.length 0,
        false⟩ := by
  simp only [process, hbin1, hbin2, hfill, if_false, ite_false, ne_eq,
    not_false_eq_true, true_and, if_true, ite_true, or_true, not_lt.mpr hgate,
    finish_buffer, osc_loop, if_pos (show 0 < fft_size by norm_num [fft_size])]

theorem process_transform_stall (l : List ℝ) (ctx : Measure_Context)
    (hbin1 : ctx.current_bin ≠ none_bin)
    (hbin2 : ctx.current_bin ≠ fft_nbins)
    (hfill : ctx.fft_in_fill = fft_size)
    (hgate : silence_run ctx.silence_frames_count l < ctx.silence_frames_needed) :
    process true l ctx =
      ⟨⟨apply_window ctx.fft_in, ctx.current_bin, fft_size, ctx.oscillator_phase,
        Function.update ctx.response ctx.current_bin
          (dft (apply_window ctx.fft_in) ctx.current_bin),
        silence_run ctx.silence_frames_count l, ctx.silence_frames_needed⟩,
        List.replicate l.length 0, false⟩ := by
  simp only [process, hbin1, hbin2, hfill, if_false, ite_false, ne_eq,
    not_false_eq_true, true_and, if_true, ite_true, or_true, hgate]

/-! ### Field invariants of one callback invocation -/

theorem process_count (l : List ℝ) (ctx : Measure_Context) :
    (process true l ctx).ctx.silence_frames_count =
      silence_run ctx.silence_frames_count l := by
  simp only [process, finish_buffer]
  split_ifs <;> rfl

theorem process_needed (l : List ℝ) (ctx : Measure_Context) :
    (process true l ctx).ctx.silence_frames_needed = ctx.silence_frames_needed := by
  simp only [process, finish_buffer]
  split_ifs <;> rfl

theorem capture_ge (x : ℕ → ℝ) (fill : ℕ) (l : List ℝ) (h : ¬ fill < fft_size) :
    capture x fill l = (x, fill) := by
  cases l with
  | nil => rfl
  | cons v rest => rw [capture, if_neg h]

theorem process_capture_over (l : List ℝ) (ctx : Measure_Context)
    (hbin1 : ctx.current_bin ≠ none_bin)
    (hbin2 : ctx.current_bin ≠ fft_nbins)
    (hfill : fft_size < ctx.fft_in_fill) :
    process true l ctx =
      ⟨⟨ctx.fft_in, ctx.current_bin, ctx.fft_in_fill, ctx.oscillator_phase,
        ctx.response, silence_run ctx.silence_frames_count l, ctx.silence_frames_needed⟩,
        List.replicate l.length 0, false⟩ := by
  have hne : ¬ (ctx.fft_in_fill = fft_size) := ne_of_gt hfill
  have hlt : ¬ (ctx.fft_in_fill < fft_size) := by omega
  simp only [process, hbin1, hbin2, hne, if_false, ite_false, ne_eq, and_false,
    false_or, or_self, finish_buffer, osc_loop, if_neg hlt,
    capture_ge ctx.fft_in ctx.fft_in_fill l hlt]
  rw [if_neg Bool.false_ne_true]

theorem process_bin (l : List ℝ) (ctx : Measure_Context) :
    (process true l ctx).ctx.current_bin = ctx.current_bin ∨
    ((process true l ctx).ctx.current_bin = (ctx.current_bin + 1) % U32 ∧
      (ctx.current_bin = none_bin ∨ ctx.fft_in_fill = fft_size) ∧
      ctx.current_bin ≠ fft_nbins ∧
      ctx.silence_frames_needed ≤ silence_run ctx.silence_frames_count l) := by
  by_cases h1 : ctx.current_bin = fft_nbins
  · rw [process_finished l ctx h1]; exact Or.inl rfl
  by_cases h2 : ctx.current_bin = none_bin
  · by_cases hg : ctx.silence_frames_needed ≤ silence_run ctx.silence_frames_count l
    · rw [process_bootstrap l ctx h2 hg]
      refine Or.inr ⟨?_, Or.inl h2, h1, hg⟩
      rw [h2, none_bin_succ]
    · rw [process_bootstrap_stall l ctx h2 (not_le.mp hg)]; exact Or.inl rfl
  by_cases h3 : ctx.fft_in_fill = fft_size
  · by_cases hg : ctx.silence_frames_needed ≤ silence_run ctx.silence_frames_count l
    · rw [process_transform_advance l ctx h2 h1 h3 hg]
      exact Or.inr ⟨rfl, Or.inr h3, h1, hg⟩
    · rw [process_transform_stall l ctx h2 h1 h3 (not_le.mp hg)]; exact Or.inl rfl
  rcases Nat.lt_or_ge ctx.fft_in_fill fft_size with h4 | h4
  · rw [process_capture l ctx h2 h1 h4]; exact Or.inl rfl
  · rw [process_capture_over l ctx h2 h1 (by omega)]; exact Or.inl rfl

theorem succ_mod_ne (b : ℕ) : (b + 1) % U32 ≠ b := by
  simp only [U32]
  omega

/-! ### Silence-run bounds -/

theorem silence_run_loud_zero {l : List ℝ}
    (h : ∀ x ∈ l, ¬ |x| < silence_threshold) : silence_run 0 l = 0 := by
  induction l with
  | nil => rfl
  | cons x rest ih =>
    rw [silence_run_cons, silence_step_loud 0 (h x (List.mem_cons_self x rest))]
    exact ih fun y hy => h y (List.mem_cons_of_mem x hy)

theorem silence_run_suffix (L : List ℝ) :
    ∀ k, k ≤ silence_run 0 L →
    ∃ pre suf, L = pre ++ suf ∧ suf.length = k ∧
      ∀ x ∈ suf, |x| < silence_threshold := by
  induction L using List.reverseRecOn with
  | nil =>
    intro k hk
    rw [silence_run_nil] at hk
    exact ⟨[], [], rfl, by simp only [List.length_nil]; omega, by simp⟩
  | append_singleton L x ih =>
    intro k hk
    rw [silence_run_append, silence_run_cons, silence_run_nil] at hk
    by_cases hx : |x| < silence_threshold
    · rw [silence_step_silent _ hx] at hk
      rcases Nat.eq_zero_or_pos k with hk0 | hkpos
      · exact ⟨L ++ [x], [], by simp, by simp only [List.length_nil]; omega, by simp⟩
      · have hk' : k - 1 ≤ silence_run 0 L := by
          have := Nat.mod_le (silence_run 0 L + 1) U32
          omega
        obtain ⟨pre, suf, hsplit, hlen, hsil⟩ := ih (k - 1) hk'
        refine ⟨pre, suf ++ [x], by rw [hsplit, List.append_assoc], by simp; omega, ?_⟩
        intro y hy
        rcases List.mem_append.mp hy with h | h
        · exact hsil y h
        · rw [List.mem_singleton.mp h]; exact hx
    · rw [silence_step_loud _ hx] at hk
      exact ⟨L ++ [x], [], by simp, by simp only [List.length_nil]; omega, by simp⟩

/-! ### Facts about the concrete streams and numerals -/

theorem s_ce_silent {k : ℕ} (h : k ≠ 514) : s_ce k = 0 := by simp [s_ce, h]

theorem s_ce_514 : s_ce 514 = 1 := by simp [s_ce]

theorem t_ce_silent {k : ℕ} (h1 : k ≠ 514) (h2 : k ≠ 2049) : t_ce k = 0 := by
  simp [t_ce, h1, h2]

theorem t_ce_514 : t_ce 514 = 1 := by simp [t_ce]

theorem t_ce_2049 : t_ce 2049 = 1 := by simp [t_ce]

theorem zero_ne_none_bin : (0 : ℕ) ≠ none_bin := by norm_num [none_bin, U32]

theorem zero_ne_nbins : (0 : ℕ) ≠ fft_nbins := by norm_num [fft_nbins, fft_size]

theorem silence_run_zero_single (c : ℕ) (h : c + 1 < U32) :
    silence_run c [(0 : ℝ)] = c + 1 := by
  rw [silence_run_cons, silence_step_silent c silent_zero, Nat.mod_eq_of_lt h,
    silence_run_nil]

theorem silence_run_chunk_silent {s : ℕ → ℝ} {pos n : ℕ} (c : ℕ)
    (hs : ∀ i, i < n → s (pos + i) = 0) (h : c + n < U32) :
    silence_run c (chunk s pos n) = c + n := by
  rw [chunk_eq_replicate hs, silence_run_replicate n c h]

/-! ### Evaluating a full capture of one analysis window -/

theorem capture_full_at {s : ℕ → ℝ} {pos : ℕ} (j : ℕ) (hj : j < 2048) :
    (capture zbuf 0 (chunk s pos 2048)).1 j = s (pos + j) := by
  rw [capture_spec _ _ _ (by rw [chunk_length]; norm_num [fft_size])]
  show (if 0 ≤ j ∧ j < 0 + (chunk s pos 2048).length
        then (chunk s pos 2048).getD (j - 0) 0 else zbuf j) = _
  rw [chunk_length, if_pos (by omega), Nat.sub_zero, chunk_getD s pos 2048 j hj]

theorem capture_full_fill {s : ℕ → ℝ} {pos : ℕ} :
    (capture zbuf 0 (chunk s pos 2048)).2 = 2048 := by
  rw [capture_spec _ _ _ (by rw [chunk_length]; norm_num [fft_size])]
  show 0 + (chunk s pos 2048).length = 2048
  rw [chunk_length]

/-! ### The DFT at bin 0 of a windowed near-zero buffer -/

theorem dft_single (x : ℕ → ℝ) (j0 : ℕ) (v : ℝ) (hj : j0 < fft_size)
    (hx : ∀ j, j < fft_size → x j = if j = j0 then v else 0) :
    dft (apply_window x) 0 = ((v * window j0 : ℝ) : ℂ) := by
  have hsum : dft (apply_window x) 0 =
      ∑ j in Finset.range fft_size,
        (if j = j0 then ((v * window j0 : ℝ) : ℂ) else 0) := by
    rw [dft]
    apply Finset.sum_congr rfl
    intro j hjr
    rw [Finset.mem_range] at hjr
    have hw : apply_window x j = if j = j0 then v * window j0 else 0 := by
      show (if j < fft_size then x j * window j else x j) = _
      rw [if_pos hjr, hx j hjr]
      by_cases h : j = j0
      · subst h; rw [if_pos rfl, if_pos rfl]
      · rw [if_neg h, if_neg h, zero_mul]
    rw [hw,
      show -(2 * (Real.pi : ℂ) * Complex.I * (j : ℂ) * ((0 : ℕ) : ℂ)) / (fft_size : ℂ) = 0
        by simp,
      Complex.exp_zero, mul_one]
    by_cases h : j = j0
    · subst h; rw [if_pos rfl, if_pos rfl]
    · rw [if_neg h, if_neg h, Complex.ofReal_zero]
  rw [hsum, Finset.sum_ite_eq' (Finset.range fft_size) j0
    (fun _ => ((v * window j0 : ℝ) : ℂ)), if_pos (Finset.mem_range.mpr hj)]

/-! ### Bounds on the window at index 513 -/

theorem window_513_bounds : 0 < window 513 ∧ window 513 < 1 := by
  have hθpos : 0 < 2 * Real.pi * (513 / 2047 : ℝ) := by
    have := Real.pi_pos
    positivity
  have hθlt : 2 * Real.pi * (513 / 2047 : ℝ) < Real.pi := by
    have h1 : 2 * Real.pi * (513 / 2047 : ℝ) = Real.pi * (1026 / 2047) := by ring
    have h2 : Real.pi * (1026 / 2047 : ℝ) < Real.pi * 1 :=
      mul_lt_mul_of_pos_left (by norm_num) Real.pi_pos
    rw [h1]
    linarith [h2]
  have hc1 : Real.cos (2 * Real.pi * (513 / 2047 : ℝ)) < 1 := by
    have := Real.cos_lt_cos_of_nonneg_of_le_pi (le_refl 0) (le_of_lt hθlt) hθpos
    rwa [Real.cos_zero] at this
  have hc2 : -1 < Real.cos (2 * Real.pi * (513 / 2047 : ℝ)) := by
    have := Real.cos_lt_cos_of_nonneg_of_le_pi (le_of_lt hθpos) (le_refl Real.pi) hθlt
    rwa [Real.cos_pi] at this
  have hw : window 513 = 0.42 - 0.5 * Real.cos (2 * Real.pi * (513 / 2047 : ℝ))
      + 0.08 * (2 * Real.cos (2 * Real.pi * (513 / 2047 : ℝ)) ^ 2 - 1) := by
    rw [window, ← Real.cos_two_mul]
    norm_num [fft_size]
    ring_nf
  constructor
  · rw [hw]
    nlinarith [mul_pos (show (0 : ℝ) < 1 - Real.cos (2 * Real.pi * (513 / 2047 : ℝ))
        by linarith)
      (show (0 : ℝ) < 2.125 - Real.cos (2 * Real.pi * (513 / 2047 : ℝ)) by linarith)]
  · rw [hw]
    nlinarith [mul_pos (show (0 : ℝ) < Real.cos (2 * Real.pi * (513 / 2047 : ℝ)) + 1
        by linarith)
      (show (0 : ℝ) < 4.125 - Real.cos (2 * Real.pi * (513 / 2047 : ℝ)) by linarith)]

theorem window_zero_val : window 0 = 0 := by
  rw [window]
  norm_num [Real.cos_zero]

/-! ### Evaluating single callback invocations of the concrete scenarios -/

theorem one_ne_none_bin : (1 : ℕ) ≠ none_bin := by norm_num [none_bin, U32]

theorem one_ne_nbins : (1 : ℕ) ≠ fft_nbins := by norm_num [fft_nbins, fft_size]

theorem inv_boot_eval {s : ℕ → ℝ} {pos n : ℕ}
    (hs : ∀ i, i < n → s (pos + i) = 0) (hn : 1 ≤ n) (hn2 : n < U32) :
    (process true (chunk s pos n) (init_ctx 1 zbuf)).ctx =
      ⟨zbuf, 0, 0, 0, fun _ => 0, n, 1⟩ := by
  have hsil : silence_run 0 (chunk s pos n) = n := by
    have h := silence_run_chunk_silent 0 hs (by omega)
    simpa using h
  rw [process_bootstrap _ _ rfl (show (1 : ℕ) ≤ silence_run 0 (chunk s pos n) by
    rw [hsil]; omega)]
  simp [init_ctx, hsil]

theorem inv_capture_eval {s : ℕ → ℝ} {pos : ℕ} (c c' : ℕ)
    (hsil : silence_run c (chunk s pos 2048) = c') :
    (process true (chunk s pos 2048)
      (⟨zbuf, 0, 0, 0, fun _ => 0, c, 1⟩ : Measure_Context)).ctx =
      ⟨(capture zbuf 0 (chunk s pos 2048)).1, 0, 2048, 0, fun _ => 0, c', 1⟩ := by
  rw [process_capture _ _ zero_ne_none_bin zero_ne_nbins (by norm_num [fft_size])]
  simp [capture_full_fill, hsil, osc_phase_zero]

/-! ### Run A: chunking `[1, 2048, 1, 513]` of the stream `s_ce` -/

set_option maxRecDepth 8000 in
theorem runA_eval :
    (run_chunks s_ce [1, 2048, 1, 513] 0 (init_ctx 1 zbuf)).response 0 =
      ((window 513 : ℝ) : ℂ) ∧
    (run_chunks s_ce [1, 2048, 1, 513] 0 (init_ctx 1 zbuf)).current_bin = 1 := by
  have hs1 : ∀ i, i < 1 → s_ce (0 + i) = 0 := fun i hi => s_ce_silent (by omega)
  have e1 := inv_boot_eval hs1 (by norm_num) (by norm_num [U32])
  have hsil2 : silence_run 1 (chunk s_ce 1 2048) = 1534 := by
    have h1 : chunk s_ce 1 2048 = chunk s_ce 1 513 ++ chunk s_ce 514 1535 := by
      have h := chunk_add s_ce 1 513 1535
      norm_num at h
      exact h
    have h2 : chunk s_ce 514 1535 = chunk s_ce 514 1 ++ chunk s_ce 515 1534 := by
      have h := chunk_add s_ce 514 1 1534
      norm_num at h
      exact h
    have hpre : ∀ i, i < 513 → s_ce (1 + i) = 0 := fun i hi => s_ce_silent (by omega)
    have hpost : ∀ i, i < 1534 → s_ce (515 + i) = 0 := fun i hi => s_ce_silent (by omega)
    rw [h1, h2, silence_run_append, silence_run_append,
      silence_run_chunk_silent 1 hpre (by norm_num [U32]),
      chunk_one, s_ce_514, silence_run_loud_singleton _ loud_one,
      silence_run_chunk_silent 0 hpost (by norm_num [U32])]
  have e2 := inv_capture_eval 1 1534 hsil2
  have hg3 : (1 : ℕ) ≤ silence_run 1534 (chunk s_ce 2049 1) := by
    rw [chunk_one, s_ce_silent (by norm_num),
      silence_run_zero_single 1534 (by norm_num [U32])]
    omega
  have e3 : (process true (chunk s_ce 2049 1)
      (⟨(capture zbuf 0 (chunk s_ce 1 2048)).1, 0, 2048, 0, fun _ => 0, 1534, 1⟩ :
        Measure_Context)).ctx =
      ⟨apply_window (capture zbuf 0 (chunk s_ce 1 2048)).1, 1, 0,
        osc_phase (((fft_size : ℝ))⁻¹) 1 0,
        Function.update (fun _ => 0) 0
          (dft (apply_window (capture zbuf 0 (chunk s_ce 1 2048)).1) 0),
        1535, 1⟩ := by
    rw [process_transform_advance _ _ zero_ne_none_bin zero_ne_nbins rfl hg3]
    have hsil3 : silence_run 1534 (chunk s_ce 2049 1) = 1535 := by
      rw [chunk_one, s_ce_silent (by norm_num),
        silence_run_zero_single 1534 (by norm_num [U32])]
    norm_num [hsil3, chunk_length, U32]
  have hchain : run_chunks s_ce [1, 2048, 1, 513] 0 (init_ctx 1 zbuf) =
      (process true (chunk s_ce 2050 513)
        (⟨apply_window (capture zbuf 0 (chunk s_ce 1 2048)).1, 1, 0,
          osc_phase (((fft_size : ℝ))⁻¹) 1 0,
          Function.update (fun _ => 0) 0
            (dft (apply_window (capture zbuf 0 (chunk s_ce 1 2048)).1) 0),
          1535, 1⟩ : Measure_Context)).ctx := by
    simp only [run_chunks]
    norm_num
    rw [e1, e2, e3]
  have hx : ∀ j, j < fft_size →
      (capture zbuf 0 (chunk s_ce 1 2048)).1 j = if j = 513 then (1 : ℝ) else 0 := by
    intro j hj
    rw [capture_full_at j hj]
    by_cases h : j = 513
    · subst h
      rw [if_pos rfl]
      norm_num [s_ce]
    · rw [s_ce_silent (by omega), if_neg h]
  have hdft : dft (apply_window (capture zbuf 0 (chunk s_ce 1 2048)).1) 0 =
      ((1 * window 513 : ℝ) : ℂ) :=
    dft_single _ 513 1 (by norm_num [fft_size]) hx
  rw [hchain, process_capture _ _ one_ne_none_bin one_ne_nbins (by norm_num [fft_size])]
  refine ⟨?_, rfl⟩
  show Function.update (fun _ => (0 : ℂ)) 0
      (dft (apply_window (capture zbuf 0 (chunk s_ce 1 2048)).1) 0) 0 = _
  rw [Function.update_same, hdft]
  norm_num

/-! ### Run B: chunking `[514, 2048, 1]` of the same stream `s_ce` -/

set_option maxRecDepth 8000 in
theorem runB_eval :
    (run_chunks s_ce [514, 2048, 1] 0 (init_ctx 1 zbuf)).response 0 = 0 ∧
    (run_chunks s_ce [514, 2048, 1] 0 (init_ctx 1 zbuf)).current_bin = 1 := by
  have hs1 : ∀ i, i < 514 → s_ce (0 + i) = 0 := fun i hi => s_ce_silent (by omega)
  have e1 := inv_boot_eval hs1 (by norm_num) (by norm_num [U32])
  have hsil2 : silence_run 514 (chunk s_ce 514 2048) = 2047 := by
    have h1 : chunk s_ce 514 2048 = chunk s_ce 514 1 ++ chunk s_ce 515 2047 := by
      have h := chunk_add s_ce 514 1 2047
      norm_num at h
      exact h
    have hpost : ∀ i, i < 2047 → s_ce (515 + i) = 0 := fun i hi => s_ce_silent (by omega)
    rw [h1, silence_run_append, chunk_one, s_ce_514,
      silence_run_loud_singleton _ loud_one,
      silence_run_chunk_silent 0 hpost (by norm_num [U32])]
  have e2 := inv_capture_eval 514 2047 hsil2
  have hg3 : (1 : ℕ) ≤ silence_run 2047 (chunk s_ce 2562 1) := by
    rw [chunk_one, s_ce_silent (by norm_num),
      silence_run_zero_single 2047 (by norm_num [U32])]
    omega
  have hchain : run_chunks s_ce [514, 2048, 1] 0 (init_ctx 1 zbuf) =
      (process true (chunk s_ce 2562 1)
        (⟨(capture zbuf 0 (chunk s_ce 514 2048)).1, 0, 2048, 0, fun _ => 0, 2047, 1⟩ :
          Measure_Context)).ctx := by
    simp only [run_chunks]
    norm_num
    rw [e1, e2]
  have hx : ∀ j, j < fft_size →
      (capture zbuf 0 (chunk s_ce 514 2048)).1 j = if j = 0 then (1 : ℝ) else 0 := by
    intro j hj
    rw [capture_full_at j hj]
    by_cases h : j = 0
    · subst h
      rw [if_pos rfl]
      norm_num [s_ce]
    · rw [s_ce_silent (by omega), if_neg h]
  have hdft : dft (apply_window (capture zbuf 0 (chunk s_ce 514 2048)).1) 0 =
      ((1 * window 0 : ℝ) : ℂ) :=
    dft_single _ 0 1 (by norm_num [fft_size]) hx
  rw [hchain, process_transform_advance _ _ zero_ne_none_bin zero_ne_nbins rfl hg3]
  constructor
  · show Function.update (fun _ => (0 : ℂ)) 0
        (dft (apply_window (capture zbuf 0 (chunk s_ce 514 2048)).1) 0) 0 = _
    rw [Function.update_same, hdft, window_zero_val]
    norm_num
  · show (0 + 1) % U32 = 1
    norm_num [U32]

/-! ### Run T: chunkings `[1, 2048, 1]` and `[1, 2048, 1, 1]` of the stream `t_ce`.
The third invocation finds the capture full but the silence gate failing, so
the transform runs and writes `response[0]`; the fourth invocation re-windows
the same buffer, reruns the transform and overwrites `response[0]`. -/

set_option maxRecDepth 8000 in
theorem runT_eval :
    (run_chunks t_ce [1, 2048, 1] 0 (init_ctx 1 zbuf)).response 0 =
      ((window 513 : ℝ) : ℂ) ∧
    (run_chunks t_ce [1, 2048, 1] 0 (init_ctx 1 zbuf)).fft_in_fill = fft_size ∧
    (run_chunks t_ce [1, 2048, 1] 0 (init_ctx 1 zbuf)).current_bin = 0 ∧
    (run_chunks t_ce [1, 2048, 1, 1] 0 (init_ctx 1 zbuf)).response 0 =
      ((window 513 * window 513 : ℝ) : ℂ) ∧
    (run_chunks t_ce [1, 2048, 1, 1] 0 (init_ctx 1 zbuf)).current_bin = 1 := by
  have hs1 : ∀ i, i < 1 → t_ce (0 + i) = 0 := fun i hi => t_ce_silent (by omega) (by omega)
  have e1 := inv_boot_eval hs1 (by norm_num) (by norm_num [U32])
  have hsil2 : silence_run 1 (chunk t_ce 1 2048) = 1534 := by
    have h1 : chunk t_ce 1 2048 = chunk t_ce 1 513 ++ chunk t_ce 514 1535 := by
      have h := chunk_add t_ce 1 513 1535
      norm_num at h
      exact h
    have h2 : chunk t_ce 514 1535 = chunk t_ce 514 1 ++ chunk t_ce 515 1534 := by
      have h := chunk_add t_ce 514 1 1534
      norm_num at h
      exact h
    have hpre : ∀ i, i < 513 → t_ce (1 + i) = 0 :=
      fun i hi => t_ce_silent (by omega) (by omega)
    have hpost : ∀ i, i < 1534 → t_ce (515 + i) = 0 :=
      fun i hi => t_ce_silent (by omega) (by omega)
    rw [h1, h2, silence_run_append, silence_run_append,
      silence_run_chunk_silent 1 hpre (by norm_num [U32]),
      chunk_one, t_ce_514, silence_run_loud_singleton _ loud_one,
      silence_run_chunk_silent 0 hpost (by norm_num [U32])]
  have e2 := inv_capture_eval 1 1534 hsil2
  have hstall : silence_run 1534 (chunk t_ce 2049 1) < 1 := by
    rw [chunk_one, t_ce_2049, silence_run_loud_singleton _ loud_one]
    omega
  have e3 : (process true (chunk t_ce 2049 1)
      (⟨(capture zbuf 0 (chunk t_ce 1 2048)).1, 0, 2048, 0, fun _ => 0, 1534, 1⟩ :
        Measure_Context)).ctx =
      ⟨apply_window (capture zbuf 0 (chunk t_ce 1 2048)).1, 0, fft_size, 0,
        Function.update (fun _ => 0) 0
          (dft (apply_window (capture zbuf 0 (chunk t_ce 1 2048)).1) 0),
        0, 1⟩ := by
    rw [process_transform_stall _ _ zero_ne_none_bin zero_ne_nbins rfl hstall]
    have hsil3 : silence_run 1534 (chunk t_ce 2049 1) = 0 := by
      rw [chunk_one, t_ce_2049, silence_run_loud_singleton _ loud_one]
    norm_num [hsil3]
  have hx : ∀ j, j < fft_size →
      (capture zbuf 0 (chunk t_ce 1 2048)).1 j = if j = 513 then (1 : ℝ) else 0 := by
    intro j hj
    have hj' : j < 2048 := hj
    rw [capture_full_at j hj']
    by_cases h : j = 513
    · subst h
      rw [if_pos rfl]
      norm_num [t_ce]
    · rw [t_ce_silent (by omega) (by omega), if_neg h]
  have hdft : dft (apply_window (capture zbuf 0 (chunk t_ce 1 2048)).1) 0 =
      ((1 * window 513 : ℝ) : ℂ) :=
    dft_single _ 513 1 (by norm_num [fft_size]) hx
  have hchain3 : run_chunks t_ce [1, 2048, 1] 0 (init_ctx 1 zbuf) =
      ⟨apply_window (capture zbuf 0 (chunk t_ce 1 2048)).1, 0, fft_size, 0,
        Function.update (fun _ => 0) 0
          (dft (apply_window (capture zbuf 0 (chunk t_ce 1 2048)).1) 0),
        0, 1⟩ := by
    simp only [run_chunks]
    norm_num
    rw [e1, e2, e3]
  have hx2 : ∀ j, j < fft_size →
      apply_window (capture zbuf 0 (chunk t_ce 1 2048)).1 j =
        if j = 513 then window 513 else 0 := by
    intro j hj
    show (if j < fft_size then (capture zbuf 0 (chunk t_ce 1 2048)).1 j * window j
          else (capture zbuf 0 (chunk t_ce 1 2048)).1 j) = _
    rw [if_pos hj, hx j hj]
    by_cases h : j = 513
    · subst h
      rw [if_pos rfl, if_pos rfl, one_mul]
    · rw [if_neg h, if_neg h, zero_mul]
  have hdft2 : dft (apply_window (apply_window (capture zbuf 0 (chunk t_ce 1 2048)).1)) 0 =
      ((window 513 * window 513 : ℝ) : ℂ) :=
    dft_single _ 513 (window 513) (by norm_num [fft_size]) hx2
  have hg4 : (1 : ℕ) ≤ silence_run 0 (chunk t_ce 2050 1) := by
    rw [chunk_one, t_ce_silent (by norm_num) (by norm_num),
      silence_run_zero_single 0 (by norm_num [U32])]
  have hchain4 : run_chunks t_ce [1, 2048, 1, 1] 0 (init_ctx 1 zbuf) =
      (process true (chunk t_ce 2050 1)
        (⟨apply_window (capture zbuf 0 (chunk t_ce 1 2048)).1, 0, fft_size, 0,
          Function.update (fun _ => 0) 0
            (dft (apply_window (capture zbuf 0 (chunk t_ce 1 2048)).1) 0),
          0, 1⟩ : Measure_Context)).ctx := by
    simp only [run_chunks]
    norm_num
    rw [e1, e2, e3]
  refine ⟨?_, ?_, ?_, ?_, ?_⟩
  · rw [hchain3]
    show Function.update (fun _ => (0 : ℂ)) 0
        (dft (apply_window (capture zbuf 0 (chunk t_ce 1 2048)).1) 0) 0 = _
    rw [Function.update_same, hdft]
    norm_num
  · rw [hchain3]
  · rw [hchain3]
  · rw [hchain4, process_transform_advance _ _ zero_ne_none_bin zero_ne_nbins rfl hg4]
    show Function.update
        (Function.update (fun _ => (0 : ℂ)) 0
          (dft (apply_window (capture zbuf 0 (chunk t_ce 1 2048)).1) 0)) 0
        (dft (apply_window (apply_window (capture zbuf 0 (chunk t_ce 1 2048)).1)) 0) 0 = _
    rw [Function.update_same, hdft2]
  · rw [hchain4, process_transform_advance _ _ zero_ne_none_bin zero_ne_nbins rfl hg4]
    show (0 + 1) % U32 = 1
    norm_num [U32]

/-! ### Invariants of iterated callback invocations -/

theorem run_bufs_cons (l : List ℝ) (rest : List (List ℝ)) (ctx : Measure_Context) :
    run_bufs (l :: rest) ctx = run_bufs rest (process true l ctx).ctx := rfl

theorem run_bufs_loud (bufs : List (List ℝ)) :
    ∀ ctx : Measure_Context, ctx.silence_frames_count = 0 →
      1 ≤ ctx.silence_frames_needed →
      (∀ l ∈ bufs, ∀ x ∈ l, ¬ |x| < silence_threshold) →
      (run_bufs bufs ctx).current_bin = ctx.current_bin ∧
      (run_bufs bufs ctx).silence_frames_count = 0 ∧
      (run_bufs bufs ctx).silence_frames_needed = ctx.silence_frames_needed := by
  induction bufs with
  | nil => intro ctx h0 _ _; exact ⟨rfl, h0, rfl⟩
  | cons l rest ih =>
    intro ctx h0 h1 hl
    have hc : (process true l ctx).ctx.silence_frames_count = 0 := by
      rw [process_count, h0]
      exact silence_run_loud_zero (hl l (List.mem_cons_self l rest))
    have hn : (process true l ctx).ctx.silence_frames_needed =
        ctx.silence_frames_needed := process_needed l ctx
    have hb : (process true l ctx).ctx.current_bin = ctx.current_bin := by
      rcases process_bin l ctx with h | ⟨_, _, _, hge⟩
      · exact h
      · rw [h0, silence_run_loud_zero (hl l (List.mem_cons_self l rest))] at hge
        omega
    have hrest := ih (process true l ctx).ctx hc (by rw [hn]; exact h1)
      fun l' h' => hl l' (List.mem_cons_of_mem l h')
    rw [run_bufs_cons]
    exact ⟨by rw [hrest.1, hb], hrest.2.1, by rw [hrest.2.2, hn]⟩

theorem run_bufs_needed (bufs : List (List ℝ)) :
    ∀ ctx : Measure_Context,
      (run_bufs bufs ctx).silence_frames_needed = ctx.silence_frames_needed := by
  induction bufs with
  | nil => intro ctx; rfl
  | cons l rest ih =>
    intro ctx
    rw [run_bufs_cons, ih, process_needed]

theorem run_bufs_count (bufs : List (List ℝ)) :
    ∀ ctx : Measure_Context,
      (run_bufs bufs ctx).silence_frames_count =
        silence_run ctx.silence_frames_count bufs.flatten := by
  induction bufs with
  | nil => intro ctx; rfl
  | cons l rest ih =>
    intro ctx
    rw [run_bufs_cons, ih, process_count,
      show (l :: rest).flatten = l ++ rest.flatten from rfl, silence_run_append]

/-! ### Oscillator phase: truncation agrees with floor on the reachable states -/

theorem osc_step_eq_fract {freq p : ℝ} (hf : 0 ≤ freq) (hp : 0 ≤ p) :
    osc_step freq p = Int.fract (p + freq) := by
  rw [osc_step, trunc, if_pos (add_nonneg hp hf), Int.fract]

theorem spec_phase_succ (freq : ℝ) (n : ℕ) (p : ℝ) :
    spec_phase freq (n + 1) p = spec_phase freq n (Int.fract (p + freq)) := by
  rw [spec_phase, Int.fract]

theorem spec_phase_mem (freq : ℝ) :
    ∀ (i : ℕ) (p : ℝ), 0 ≤ p → p < 1 →
      0 ≤ spec_phase freq i p ∧ spec_phase freq i p < 1 := by
  intro i
  induction i with
  | zero => intro p h0 h1; exact ⟨h0, h1⟩
  | succ n ih =>
    intro p _ _
    rw [spec_phase_succ]
    exact ih _ (Int.fract_nonneg _) (Int.fract_lt_one _)

theorem osc_phase_eq_spec (freq : ℝ) (hf : 0 ≤ freq) :
    ∀ (i : ℕ) (p : ℝ), 0 ≤ p → osc_phase freq i p = spec_phase freq i p := by
  intro i
  induction i with
  | zero => intro p _; rfl
  | succ n ih =>
    intro p h0
    rw [osc_phase, spec_phase_succ, osc_step_eq_fract hf h0]
    exact ih _ (Int.fract_nonneg _)

theorem osc_out_eq_spec (freq : ℝ) (hf : 0 ≤ freq) :
    ∀ (n : ℕ) (p : ℝ), 0 ≤ p →
      osc_out freq n p =
        (List.range n).map fun i => Real.sin (spec_phase freq i p) := by
  intro n
  induction n with
  | zero => intro p _; rfl
  | succ n ih =>
    intro p h0
    have hnext : (0 : ℝ) ≤ osc_step freq p := by
      rw [osc_step_eq_fract hf h0]
      exact Int.fract_nonneg _
    rw [osc_out, List.range_succ_eq_map, List.map_cons, List.map_map, ih _ hnext]
    congr 1
    apply List.map_congr_left
    intro i _
    show Real.sin (spec_phase freq i (osc_step freq p)) =
      Real.sin (spec_phase freq (i + 1) p)
    rw [spec_phase_succ, osc_step_eq_fract hf h0]

/-! ## Claim theorems -/

/-- C1 (counterexample): chunk-size independence is FALSE for the callback.
The same input stream `s_ce`, replayed through buffer-length sequences
`[1, 2048, 1, 513]` and `[514, 2048, 1]` (both consuming 2563 samples), gives
different final values of `response[0]` although both runs have completed bin
0: input samples delivered in the same invocation as a bin transition are
never captured, so the two chunkings capture differently aligned windows. -/
theorem C1_counterexample : ¬ chunk_independent := by
  intro h
  have heq := h s_ce [1, 2048, 1, 513] [514, 2048, 1] 1 zbuf 0 (by norm_num)
    (by rw [runA_eval.2]; omega) (by rw [runB_eval.2]; omega)
  rw [runA_eval.1, runB_eval.1] at heq
  exact Complex.ofReal_ne_zero.mpr (ne_of_gt window_513_bounds.1) heq

/-- C1 (amended): the final `response[bin]` values are NOT independent of the
buffer-length sequence: there are two chunkings of the same stream, consuming
the same number of samples and both completing bin 0, whose stored
`response[0]` values differ.  (The silence counter itself is chunk-invariant,
but the capture window alignment is not.) -/
theorem C1_chunk_dependent :
    ([1, 2048, 1, 513] : List ℕ).sum = ([514, 2048, 1] : List ℕ).sum ∧
    0 < (run_chunks s_ce [1, 2048, 1, 513] 0 (init_ctx 1 zbuf)).current_bin ∧
    0 < (run_chunks s_ce [514, 2048, 1] 0 (init_ctx 1 zbuf)).current_bin ∧
    (run_chunks s_ce [1, 2048, 1, 513] 0 (init_ctx 1 zbuf)).response 0 ≠
      (run_chunks s_ce [514, 2048, 1] 0 (init_ctx 1 zbuf)).response 0 := by
  refine ⟨by norm_num, by rw [runA_eval.2]; omega, by rw [runB_eval.2]; omega, ?_⟩
  rw [runA_eval.1, runB_eval.1]
  exact Complex.ofReal_ne_zero.mpr (ne_of_gt window_513_bounds.1)

/-- C2 (code bug): `response[bin]` can be written MORE than once.  With the
stream `t_ce` and buffers `[1, 2048, 1, 1]`, the third invocation finds the
capture buffer full but the silence gate failing: it windows the buffer,
runs the transform and stores `response[0] = window(513)`, then returns
without advancing.  The fourth invocation windows the SAME buffer again and
overwrites `response[0] = window(513)^2`, a different value. -/
theorem C2_double_write :
    (run_chunks t_ce [1, 2048, 1] 0 (init_ctx 1 zbuf)).response 0 =
      ((window 513 : ℝ) : ℂ) ∧
    (run_chunks t_ce [1, 2048, 1] 0 (init_ctx 1 zbuf)).fft_in_fill = fft_size ∧
    (run_chunks t_ce [1, 2048, 1, 1] 0 (init_ctx 1 zbuf)).response 0 =
      ((window 513 * window 513 : ℝ) : ℂ) ∧
    (run_chunks t_ce [1, 2048, 1] 0 (init_ctx 1 zbuf)).response 0 ≠
      (run_chunks t_ce [1, 2048, 1, 1] 0 (init_ctx 1 zbuf)).response 0 := by
  obtain ⟨h1, h2, _, h4, _⟩ := runT_eval
  refine ⟨h1, h2, h4, ?_⟩
  rw [h1, h4]
  intro hcontra
  rw [Complex.ofReal_inj] at hcontra
  nlinarith [window_513_bounds.1, window_513_bounds.2]

/-- C4: (a) if every input sample after the start has absolute value at least
the silence threshold 0.01, the bin index never advances, for any number of
callback invocations; (b) whenever an invocation does advance the bin, the
stream processed so far ends with at least `silence_frames_needed`
consecutive samples below the threshold. -/
theorem C4_silence_gating :
    (∀ (bufs : List (List ℝ)) (ctx : Measure_Context),
      ctx.silence_frames_count = 0 → 1 ≤ ctx.silence_frames_needed →
      (∀ l ∈ bufs, ∀ x ∈ l, ¬ |x| < silence_threshold) →
      (run_bufs bufs ctx).current_bin = ctx.current_bin) ∧
    (∀ (bufs : List (List ℝ)) (needed : ℕ) (buf : ℕ → ℝ) (l : List ℝ),
      (process true l (run_bufs bufs (init_ctx needed buf))).ctx.current_bin ≠
        (run_bufs bufs (init_ctx needed buf)).current_bin →
      ∃ pre suf, bufs.flatten ++ l = pre ++ suf ∧ suf.length = needed ∧
        ∀ x ∈ suf, |x| < silence_threshold) := by
  constructor
  · intro bufs ctx h0 h1 hl
    exact (run_bufs_loud bufs ctx h0 h1 hl).1
  · intro bufs needed buf l hadv
    have hge : needed ≤ silence_run 0 (bufs.flatten ++ l) := by
      rcases process_bin l (run_bufs bufs (init_ctx needed buf)) with h | ⟨_, _, _, hge⟩
      · exact absurd h hadv
      · rw [run_bufs_needed, run_bufs_count] at hge
        rw [silence_run_append]
        exact hge
    exact silence_run_suffix (bufs.flatten ++ l) needed hge

/-- C4 witness: with a constantly loud input (sample value 1 ≥ 0.01) the bin
index stays at the `~0u` sentinel; and the very first advance (sentinel to
bin 0, with `silence_frames_needed = 1`) is preceded by one silent sample. -/
theorem C4_witness :
    (run_bufs [[(1 : ℝ)]] (init_ctx 1 zbuf)).current_bin =
      (init_ctx 1 zbuf).current_bin ∧
    ((process true [(0 : ℝ)] (run_bufs [] (init_ctx 1 zbuf))).ctx.current_bin ≠
        (run_bufs [] (init_ctx 1 zbuf)).current_bin →
      ∃ pre suf, ([] : List (List ℝ)).flatten ++ [(0 : ℝ)] = pre ++ suf ∧
        suf.length = 1 ∧ ∀ x ∈ suf, |x| < silence_threshold) := by
  constructor
  · exact C4_silence_gating.1 [[(1 : ℝ)]] (init_ctx 1 zbuf) rfl (le_refl 1)
      (by
        intro l hl x hx
        rw [List.mem_singleton] at hl
        subst hl
        rw [List.mem_singleton] at hx
        subst hx
        exact loud_one)
  · exact C4_silence_gating.2 [] 1 zbuf [(0 : ℝ)]

/-- C5: `silence_frames_needed` is computed as `ceil(0.010 × sample_rate)`,
and the single stored threshold gates bin advancement identically in the
bootstrap case (no bin selected yet, before bin 0) and in the
capture-complete case (before every subsequent bin): in both, the bin
advances exactly when `silence_frames_count ≥ silence_frames_needed`. -/
theorem C5_needed_uniform :
    (∀ sr : ℝ, mkNeeded sr = (⌈(0.010 : ℝ) * sr⌉).toNat) ∧
    (∀ (ctx : Measure_Context) (l : List ℝ), ctx.current_bin = none_bin →
      ((process true l ctx).ctx.current_bin = (ctx.current_bin + 1) % U32 ↔
        ctx.silence_frames_needed ≤ silence_run ctx.silence_frames_count l)) ∧
    (∀ (ctx : Measure_Context) (l : List ℝ), ctx.current_bin ≠ none_bin →
      ctx.current_bin ≠ fft_nbins → ctx.fft_in_fill = fft_size →
      ((process true l ctx).ctx.current_bin = (ctx.current_bin + 1) % U32 ↔
        ctx.silence_frames_needed ≤ silence_run ctx.silence_frames_count l)) := by
  refine ⟨?_, ?_, ?_⟩
  · intro sr
    rw [mkNeeded]
  · intro ctx l hbin
    constructor
    · intro hadv
      by_contra hlt
      rw [process_bootstrap_stall l ctx hbin (not_le.mp hlt)] at hadv
      exact succ_mod_ne ctx.current_bin hadv.symm
    · intro hge
      rw [process_bootstrap l ctx hbin hge, hbin, none_bin_succ]
  · intro ctx l hbin1 hbin2 hfill
    constructor
    · intro hadv
      by_contra hlt
      rw [process_transform_stall l ctx hbin1 hbin2 hfill (not_le.mp hlt)] at hadv
      exact succ_mod_ne ctx.current_bin hadv.symm
    · intro hge
      rw [process_transform_advance l ctx hbin1 hbin2 hfill hge]

/-- C5 witness: at sample rate 48000 the debounce length is 480 frames, and
both gate instances evaluated at concrete contexts. -/
theorem C5_witness :
    mkNeeded 48000 = (⌈(0.010 : ℝ) * 48000⌉).toNat ∧
    ((process true [(0 : ℝ)] (init_ctx 1 zbuf)).ctx.current_bin =
        ((init_ctx 1 zbuf).current_bin + 1) % U32 ↔
      (1 : ℕ) ≤ silence_run 0 [(0 : ℝ)]) ∧
    ((process true [(0 : ℝ)]
        (⟨zbuf, 0, fft_size, 0, fun _ => 0, 0, 1⟩ : Measure_Context)).ctx.current_bin =
        ((0 : ℕ) + 1) % U32 ↔
      (1 : ℕ) ≤ silence_run 0 [(0 : ℝ)]) := by
  refine ⟨C5_needed_uniform.1 48000, C5_needed_uniform.2.1 (init_ctx 1 zbuf) [(0 : ℝ)] rfl, ?_⟩
  exact C5_needed_uniform.2.2 (⟨zbuf, 0, fft_size, 0, fun _ => 0, 0, 1⟩ : Measure_Context)
    [(0 : ℝ)] zero_ne_none_bin zero_ne_nbins rfl

/-- C6: the persisted result has exactly `N/2+1 = 1025` lines, one per bin in
increasing bin order, each carrying
`(frequency, |coefficient|/N, phase)`; the frequency column is strictly
increasing, the first line is 0 Hz and the last is the Nyquist frequency
`sample_rate/2`. -/
theorem C6_output_format (fs : ℝ) (resp : ℕ → ℂ) (hfs : 0 < fs) :
    (outputLines fs resp).length = 1025 ∧
    (∀ b, b < 1025 → (outputLines fs resp).getD b (0, 0, 0) =
      ((b : ℝ) * (fs / (fft_size : ℝ)), Complex.abs (resp b) / (fft_size : ℝ),
        Complex.arg (resp b))) ∧
    (∀ i j, i < j → j < 1025 →
      ((outputLines fs resp).getD i (0, 0, 0)).1 <
        ((outputLines fs resp).getD j (0, 0, 0)).1) ∧
    ((outputLines fs resp).getD 0 (0, 0, 0)).1 = 0 ∧
    ((outputLines fs resp).getD 1024 (0, 0, 0)).1 = fs / 2 := by
  have hget : ∀ b, b < 1025 → (outputLines fs resp).getD b (0, 0, 0) =
      ((b : ℝ) * (fs / (fft_size : ℝ)), Complex.abs (resp b) / (fft_size : ℝ),
        Complex.arg (resp b)) := by
    intro b hb
    have hb' : b < fft_nbins := hb
    simp [outputLines, List.getD_eq_getElem?_getD, List.getElem?_map,
      List.getElem?_range hb']
  have hpos : 0 < fs / (fft_size : ℝ) := by
    apply div_pos hfs
    norm_num [fft_size]
  refine ⟨?_, hget, ?_, ?_, ?_⟩
  · show (List.map _ (List.range fft_nbins)).length = 1025
    rw [List.length_map, List.length_range]
    norm_num [fft_nbins, fft_size]
  · intro i j hij hj
    rw [hget i (by omega), hget j (by omega)]
    show (i : ℝ) * (fs / (fft_size : ℝ)) < (j : ℝ) * (fs / (fft_size : ℝ))
    exact mul_lt_mul_of_pos_right (by exact_mod_cast hij) hpos
  · rw [hget 0 (by norm_num)]
    show (Nat.cast 0 : ℝ) * (fs / (fft_size : ℝ)) = 0
    norm_num
  · rw [hget 1024 (by norm_num)]
    show (Nat.cast 1024 : ℝ) * (fs / (fft_size : ℝ)) = fs / 2
    rw [show ((fft_size : ℕ) : ℝ) = 2048 by norm_num [fft_size]]
    push_cast
    ring

/-- C6 witness: concrete instance at sample rate 48000 with a zero table. -/
theorem C6_witness :
    (0 : ℝ) < 48000 ∧
    (outputLines 48000 (fun _ => 0)).length = 1025 ∧
    ((outputLines 48000 (fun _ => 0)).getD 0 (0, 0, 0)).1 = 0 ∧
    ((outputLines 48000 (fun _ => 0)).getD 1024 (0, 0, 0)).1 = 48000 / 2 ∧
    ((outputLines 48000 (fun _ => 0)).getD 0 (0, 0, 0)).1 <
      ((outputLines 48000 (fun _ => 0)).getD 1 (0, 0, 0)).1 := by
  have h := C6_output_format 48000 (fun _ => 0) (by norm_num)
  exact ⟨by norm_num, h.1, h.2.2.2.1, h.2.2.2.2,
    h.2.2.1 0 1 (by norm_num) (by norm_num)⟩

/-- C7: while a bin is excited the synthesized buffer is
`output[i] = sin(phase_i)` where the phase accumulator obeys the
specification recurrence `phase += bin/N; phase -= floor(phase)` (the
source's `(int)` truncation agrees with `floor` on the reachable
non-negative phases), and the phase stays in `[0, 1)` after every sample;
moreover an excited (non-transition) invocation of the callback emits
exactly this oscillator output at frequency `current_bin / N`. -/
theorem C7_oscillator :
    (∀ (freq p : ℝ) (n : ℕ), 0 ≤ freq → freq < 1 → 0 ≤ p → p < 1 →
      (osc_out freq n p =
        (List.range n).map fun i => Real.sin (spec_phase freq i p)) ∧
      (∀ i : ℕ, osc_phase freq i p = spec_phase freq i p) ∧
      (∀ i : ℕ, 0 ≤ spec_phase freq i p ∧ spec_phase freq i p < 1)) ∧
    (∀ (ctx : Measure_Context) (l : List ℝ), ctx.current_bin ≠ none_bin →
      ctx.current_bin ≠ fft_nbins → ctx.fft_in_fill < fft_size →
      (process true l ctx).output =
        osc_out ((ctx.current_bin : ℝ) / (fft_size : ℝ)) l.length
          ctx.oscillator_phase ∧
      (process true l ctx).ctx.oscillator_phase =
        osc_phase ((ctx.current_bin : ℝ) / (fft_size : ℝ)) l.length
          ctx.oscillator_phase) := by
  constructor
  · intro freq p n hf0 _ hp0 hp1
    exact ⟨osc_out_eq_spec freq hf0 n p hp0,
      fun i => osc_phase_eq_spec freq hf0 i p hp0,
      fun i => spec_phase_mem freq i p hp0 hp1⟩
  · intro ctx l hbin1 hbin2 hfill
    rw [process_capture l ctx hbin1 hbin2 hfill]
    exact ⟨rfl, rfl⟩

/-- C7 witness: the oscillator at `freq = 1/2048`, phase 0, for two samples,
and a concrete excited invocation at bin 1. -/
theorem C7_witness :
    (osc_out ((1 : ℝ) / 2048) 2 0 =
      (List.range 2).map fun i => Real.sin (spec_phase ((1 : ℝ) / 2048) i 0)) ∧
    (0 ≤ spec_phase ((1 : ℝ) / 2048) 2 0 ∧ spec_phase ((1 : ℝ) / 2048) 2 0 < 1) ∧
    (process true [(0 : ℝ)]
      (⟨zbuf, 1, 0, 0, fun _ => 0, 0, 1⟩ : Measure_Context)).output =
      osc_out (((1 : ℕ) : ℝ) / (fft_size : ℝ)) 1 0 := by
  have h1 := C7_oscillator.1 ((1 : ℝ) / 2048) 0 2 (by norm_num) (by norm_num)
    (le_refl 0) (by norm_num)
  have h2 := C7_oscillator.2 (⟨zbuf, 1, 0, 0, fun _ => 0, 0, 1⟩ : Measure_Context)
    [(0 : ℝ)] one_ne_none_bin one_ne_nbins (by norm_num [fft_size])
  exact ⟨h1.1, h1.2.2 2, h2.1⟩

/-- C8: whenever the transform executes (a bin is selected and the capture
buffer holds `N` samples), the buffer is first windowed in place at every
index `i < N` by `w(i) = 0.42 − 0.5·cos(2πi/(N−1)) + 0.08·cos(4πi/(N−1))`,
and the response value stored for the current bin is the DFT of this
windowed buffer. -/
theorem C8_window_applied (ctx : Measure_Context) (l : List ℝ)
    (hbin1 : ctx.current_bin ≠ none_bin) (hbin2 : ctx.current_bin ≠ fft_nbins)
    (hfill : ctx.fft_in_fill = fft_size) :
    ((process true l ctx).ctx.fft_in = fun i =>
      if i < fft_size then
        ctx.fft_in i *
          (0.42 - 0.5 * Real.cos (2 * Real.pi * ((i : ℝ) / ((fft_size - 1 : ℕ) : ℝ)))
            + 0.08 * Real.cos (4 * Real.pi * ((i : ℝ) / ((fft_size - 1 : ℕ) : ℝ))))
      else ctx.fft_in i) ∧
    (process true l ctx).ctx.response ctx.current_bin =
      dft ((process true l ctx).ctx.fft_in) ctx.current_bin := by
  by_cases hg : ctx.silence_frames_needed ≤ silence_run ctx.silence_frames_count l
  · rw [process_transform_advance l ctx hbin1 hbin2 hfill hg]
    refine ⟨rfl, ?_⟩
    show Function.update ctx.response ctx.current_bin
      (dft (apply_window ctx.fft_in) ctx.current_bin) ctx.current_bin = _
    rw [Function.update_same]
  · rw [process_transform_stall l ctx hbin1 hbin2 hfill (not_le.mp hg)]
    refine ⟨rfl, ?_⟩
    show Function.update ctx.response ctx.current_bin
      (dft (apply_window ctx.fft_in) ctx.current_bin) ctx.current_bin = _
    rw [Function.update_same]

/-- C8 witness: the windowing and coherent readout at a concrete context
(bin 0, full capture buffer, empty callback buffer). -/
theorem C8_witness :
    ((process true []
        (⟨zbuf, 0, fft_size, 0, fun _ => 0, 0, 1⟩ : Measure_Context)).ctx.fft_in =
      fun i =>
        if i < fft_size then
          zbuf i *
            (0.42 - 0.5 * Real.cos (2 * Real.pi * ((i : ℝ) / ((fft_size - 1 : ℕ) : ℝ)))
              + 0.08 * Real.cos (4 * Real.pi * ((i : ℝ) / ((fft_size - 1 : ℕ) : ℝ))))
        else zbuf i) ∧
    (process true []
      (⟨zbuf, 0, fft_size, 0, fun _ => 0, 0, 1⟩ : Measure_Context)).ctx.response 0 =
      dft ((process true []
        (⟨zbuf, 0, fft_size, 0, fun _ => 0, 0, 1⟩ : Measure_Context)).ctx.fft_in) 0 :=
  C8_window_applied (⟨zbuf, 0, fft_size, 0, fun _ => 0, 0, 1⟩ : Measure_Context) []
    zero_ne_none_bin zero_ne_nbins rfl

/-- C9: if the start signal has not been observed, the callback writes a
fully zeroed output buffer, signals nothing, and leaves every field of the
measurement context unchanged. -/
theorem C9_not_started (l : List ℝ) (ctx : Measure_Context) :
    process false l ctx = ⟨ctx, List.replicate l.length 0, false⟩ ∧
    (process false l ctx).ctx.silence_frames_count = ctx.silence_frames_count ∧
    (process false l ctx).ctx.current_bin = ctx.current_bin ∧
    (process false l ctx).ctx.fft_in_fill = ctx.fft_in_fill ∧
    (process false l ctx).ctx.oscillator_phase = ctx.oscillator_phase ∧
    (process false l ctx).ctx.response = ctx.response ∧
    (process false l ctx).ctx.fft_in = ctx.fft_in ∧
    (process false l ctx).output = List.replicate l.length 0 ∧
    (process false l ctx).finished = false :=
  ⟨rfl, rfl, rfl, rfl, rfl, rfl, rfl, rfl, rfl⟩

/-- C10: in an invocation that advances the bin (including the advance from
the `~0u` sentinel to bin 0), the capture fill is left at 0 and the capture
buffer receives none of this invocation's input samples (it is at most
re-windowed in place), even though the oscillator already synthesizes the
new bin's tone (from phase 0) in this same invocation; the new bin's input
capture begins only at the following invocation. -/
theorem C10_transition_skips_capture (ctx : Measure_Context) (l : List ℝ)
    (hchange : ctx.current_bin = none_bin ∨ ctx.fft_in_fill = fft_size)
    (hrange : ctx.current_bin = none_bin ∨ ctx.current_bin < fft_nbins)
    (hbin : ctx.current_bin ≠ fft_nbins)
    (hgate : ctx.silence_frames_needed ≤ silence_run ctx.silence_frames_count l) :
    (process true l ctx).ctx.fft_in_fill = 0 ∧
    (∀ i, (process true l ctx).ctx.fft_in i = ctx.fft_in i ∨
      (process true l ctx).ctx.fft_in i = ctx.fft_in i * window i) ∧
    (process true l ctx).output =
      osc_out ((((ctx.current_bin + 1) % U32 : ℕ) : ℝ) / (fft_size : ℝ))
        l.length 0 ∧
    ((ctx.current_bin + 1) % U32 ≠ fft_nbins →
      ∀ (l2 : List ℝ) (j : ℕ), j < l2.length → l2.length ≤ fft_size →
        (process true l2 (process true l ctx).ctx).ctx.fft_in j = l2.getD j 0 ∧
        (process true l2 (process true l ctx).ctx).ctx.fft_in_fill = l2.length) := by
  by_cases hb : ctx.current_bin = none_bin
  · have hfreq : (((ctx.current_bin + 1) % U32 : ℕ) : ℝ) / (fft_size : ℝ) = 0 := by
      rw [hb, none_bin_succ]
      norm_num
    rw [process_bootstrap l ctx hb hgate, hfreq]
    refine ⟨rfl, fun i => Or.inl rfl, rfl, ?_⟩
    intro _ l2 j hj hl2
    rw [process_capture _ _ zero_ne_none_bin zero_ne_nbins (by norm_num [fft_size])]
    constructor
    · show (capture ctx.fft_in 0 l2).1 j = l2.getD j 0
      rw [capture_spec l2 ctx.fft_in 0 (by omega)]
      show (if 0 ≤ j ∧ j < 0 + l2.length then l2.getD (j - 0) 0 else ctx.fft_in j) = _
      rw [if_pos (by omega), Nat.sub_zero]
    · show (capture ctx.fft_in 0 l2).2 = l2.length
      rw [capture_spec l2 ctx.fft_in 0 (by omega)]
      exact Nat.zero_add l2.length
  · have hf : ctx.fft_in_fill = fft_size := hchange.resolve_left hb
    have hlt : ctx.current_bin < fft_nbins := hrange.resolve_left hb
    rw [process_transform_advance l ctx hb hbin hf hgate]
    refine ⟨rfl, ?_, rfl, ?_⟩
    · intro i
      by_cases hi : i < fft_size
      · exact Or.inr (if_pos hi)
      · exact Or.inl (if_neg hi)
    · intro hnb l2 j hj hl2
      have hbne : (ctx.current_bin + 1) % U32 ≠ none_bin := by
        rw [show fft_nbins = 1025 from rfl] at hlt
        simp only [U32, none_bin]
        omega
      rw [process_capture _ _ hbne hnb (by norm_num [fft_size])]
      constructor
      · show (capture (apply_window ctx.fft_in) 0 l2).1 j = l2.getD j 0
        rw [capture_spec l2 (apply_window ctx.fft_in) 0 (by omega)]
        show (if 0 ≤ j ∧ j < 0 + l2.length then l2.getD (j - 0) 0
              else apply_window ctx.fft_in j) = _
        rw [if_pos (by omega), Nat.sub_zero]
      · show (capture (apply_window ctx.fft_in) 0 l2).2 = l2.length
        rw [capture_spec l2 (apply_window ctx.fft_in) 0 (by omega)]
        exact Nat.zero_add l2.length

/-- C10 witness: the bootstrap transition with a one-sample silent buffer
drops that sample (fill stays 0), synthesizes the new bin's tone, and the
following invocation starts capturing (its first sample lands at index 0). -/
theorem C10_witness :
    (process true [(0 : ℝ)] (init_ctx 1 zbuf)).ctx.fft_in_fill = 0 ∧
    ((process true [(0 : ℝ)] (init_ctx 1 zbuf)).ctx.fft_in 0 = zbuf 0 ∨
      (process true [(0 : ℝ)] (init_ctx 1 zbuf)).ctx.fft_in 0 = zbuf 0 * window 0) ∧
    (process true [(0 : ℝ)] (init_ctx 1 zbuf)).output =
      osc_out ((((none_bin + 1) % U32 : ℕ) : ℝ) / (fft_size : ℝ)) 1 0 ∧
    (process true [(5 : ℝ)]
      (process true [(0 : ℝ)] (init_ctx 1 zbuf)).ctx).ctx.fft_in 0 = 5 ∧
    (process true [(5 : ℝ)]
      (process true [(0 : ℝ)] (init_ctx 1 zbuf)).ctx).ctx.fft_in_fill = 1 := by
  have hgate : (init_ctx 1 zbuf).silence_frames_needed ≤
      silence_run (init_ctx 1 zbuf).silence_frames_count [(0 : ℝ)] := by
    show (1 : ℕ) ≤ silence_run 0 [(0 : ℝ)]
    rw [silence_run_zero_single 0 (by norm_num [U32])]
  have h := C10_transition_skips_capture (init_ctx 1 zbuf) [(0 : ℝ)]
    (Or.inl rfl) (Or.inl rfl) (by exact none_bin_ne_nbins) hgate
  have hnb : ((init_ctx 1 zbuf).current_bin + 1) % U32 ≠ fft_nbins := by
    show (none_bin + 1) % U32 ≠ fft_nbins
    rw [none_bin_succ]
    exact zero_ne_nbins
  have h4 := h.2.2.2 hnb [(5 : ℝ)] 0 (by norm_num) (by norm_num [fft_size])
  exact ⟨h.1, h.2.1 0, h.2.2.1, by rw [h4.1]; rfl, h4.2⟩

end FreqResp
